import Mathlib

/-
Verification of the schema-graph core of parse_schema.py.

The source parses a GraphQL introspection document into a type map and
derives a nested field graph: get_base_type unwraps LIST/NON_NULL wrappers,
build_edge_node_map collapses Relay Edge types to their node entity,
build_nested_fields expands fields recursively with a path-local cycle
guard and a depth bound, extract_fields gives the flat listing and
extract_nested the recursive mapping over domain types.

Python dictionaries are modelled as association lists (insertion order is
significant; dict keys are unique, which appears as a Nodup hypothesis
where a proof needs it).  A missing dict key and a key mapped to None are
both modelled as Option.none, matching what dict.get observes.  A dict
entry {"field": f, "type": t} without a "fields" key and one with that key
are both modelled by NestedField, whose last component is none exactly
when the key is absent.  Python str.startswith and str.endswith are
modelled on character lists.
-/

namespace GitlabSchema

/-- A GraphQL type reference: the dict {"kind": ..., "name": ..., "ofType": ...}
from the introspection document, every key optional. -/
inductive TypeRef where
  | mk (kind : Option String) (name : Option String) (ofType : Option TypeRef)

/-- The empty dict {}, used by the source as the default for f.get("type", {}). -/
def emptyRef : TypeRef := .mk none none none

/-- Python truthiness of a type-reference dict: the empty dict {} is falsy,
any dict with a key is truthy. -/
def TypeRef.truthy : TypeRef → Bool
  | .mk none none none => false
  | _ => true

/-- A field descriptor: the dict {"name": ..., "type": ...}, keys optional. -/
structure FieldDesc where
  name : Option String
  type : Option TypeRef

/-- A type descriptor as used by the core: its "kind" and "fields" keys.
(The "name" key of the dict is the key of the type map and is not read
again by the core.) -/
structure TypeDesc where
  kind : Option String
  fields : Option (List FieldDesc)

/-- The type map returned by load_schema: type name to descriptor. -/
abbrev TypeMap := List (String × TypeDesc)

/-- The edge map of build_edge_node_map: Edge type name to entity name. -/
abbrev EdgeMap := List (String × String)

/-- Python str.startswith, on character lists. -/
def startswith (s p : String) : Bool := p.data.isPrefixOf s.data

/-- Python str.endswith, on character lists. -/
def endswith (s p : String) : Bool := p.data.isSuffixOf s.data

/-- get_base_type: recursively unwrap LIST/NON_NULL wrappers to get the
underlying type name; "name or empty-string" on the terminal reference. -/
def get_base_type : TypeRef → String
  | .mk kind name ofType =>
    match ofType with
    | some inner =>
      if (kind == some "NON_NULL" || kind == some "LIST") && inner.truthy then
        get_base_type inner
      else
        name.getD ""
    | none => name.getD ""

/-- is_domain_type: the name filter shared by extract_fields and
extract_nested (defined twice, identically, in the source). -/
def is_domain_type (name : String) : Bool :=
  if startswith name "__" then false
  else if endswith name "Connection" || endswith name "Edge" || endswith name "Payload" then false
  else true

/-- build_edge_node_map: for each type whose name ends in "Edge" and whose
field list contains a field literally named "node", map the type name to
the resolved base type of that field. -/
def build_edge_node_map (tm : TypeMap) : EdgeMap :=
  tm.filterMap (fun p =>
    if endswith p.1 "Edge" then
      match p.2.fields with
      | some fs =>
        (fs.find? (fun f => f.name == some "node")).map
          (fun f => (p.1, get_base_type (f.type.getD emptyRef)))
      | none => none
    else none)

/-- A produced entry {"field": ..., "type": ..., "fields"?: ...}; the last
component is none exactly when the optional "fields" key is absent. -/
inductive NestedField where
  | mk (field : String) (type : String) (fields : Option (List NestedField))

def NestedField.field : NestedField → String
  | .mk f _ _ => f

def NestedField.type : NestedField → String
  | .mk _ t _ => t

def NestedField.fields : NestedField → Option (List NestedField)
  | .mk _ _ fs => fs

/-- The field list of a type name: type_map lookup, then the "fields" key,
with the empty list for a missing type or missing key. -/
def fieldsOf (tm : TypeMap) (name : String) : List FieldDesc :=
  ((tm.lookup name).bind TypeDesc.fields).getD []

/-- Python truthiness of type_map.get(name, {}).get("fields"): the type is
present and its field list is non-empty. -/
def hasFields (tm : TypeMap) (name : String) : Bool :=
  !(fieldsOf tm name).isEmpty

/-- The guard max_depth is not None and depth >= max_depth. -/
def depthExceeded (max_depth : Option Nat) (depth : Nat) : Bool :=
  match max_depth with
  | some m => decide (m ≤ depth)
  | none => false

/-- Number of keys of the type map not yet in the visiting set: the
termination measure of the recursive builder. -/
def keysUnseen (tm : TypeMap) (seen : List String) : Nat :=
  ((tm.map Prod.fst).filter (fun k => !seen.contains k)).length

lemma length_filter_le_of_imp {α : Type} (p q : α → Bool) (l : List α)
    (himp : ∀ x, q x = true → p x = true) :
    (l.filter q).length ≤ (l.filter p).length := by
  induction l with
  | nil => simp
  | cons b l ih =>
    cases hqb : q b with
    | true =>
      have hpb := himp b hqb
      simp [List.filter_cons, hqb, hpb]
      omega
    | false =>
      cases hpb : p b with
      | true =>
        simp [List.filter_cons, hqb, hpb]
        omega
      | false =>
        simp [List.filter_cons, hqb, hpb]
        exact ih

lemma length_filter_lt_of_witness {α : Type} (p q : α → Bool) (l : List α)
    (himp : ∀ x, q x = true → p x = true) (a : α) (ha : a ∈ l)
    (hq : q a = false) (hp : p a = true) :
    (l.filter q).length < (l.filter p).length := by
  induction l with
  | nil => cases ha
  | cons b l ih =>
    rcases List.mem_cons.mp ha with rfl | hb
    · have hle := length_filter_le_of_imp p q l himp
      simp [List.filter_cons, hq, hp]
      omega
    · cases hqb : q b with
      | true =>
        have hpb := himp b hqb
        have := ih hb
        simp [List.filter_cons, hqb, hpb]
        omega
      | false =>
        cases hpb : p b with
        | true =>
          have := ih hb
          simp [List.filter_cons, hqb, hpb]
          omega
        | false =>
          simp [List.filter_cons, hqb, hpb]
          exact ih hb

lemma lookup_mem_keys {α : Type} (tm : List (String × α)) (n : String) (t : α)
    (h : tm.lookup n = some t) : n ∈ tm.map Prod.fst := by
  induction tm with
  | nil => simp [List.lookup] at h
  | cons b tm ih =>
    rw [List.lookup] at h
    cases hb : (n == b.1) with
    | true =>
      have : n = b.1 := eq_of_beq hb
      simp [this]
    | false =>
      rw [hb] at h
      simp only [List.map_cons, List.mem_cons]
      exact Or.inr (ih h)

lemma hasFields_mem_keys (tm : TypeMap) (n : String) (h : hasFields tm n = true) :
    n ∈ tm.map Prod.fst := by
  cases hl : tm.lookup n with
  | none => simp [hasFields, fieldsOf, hl] at h
  | some t => exact lookup_mem_keys tm n t hl

lemma keysUnseen_lt (tm : TypeMap) (seen : List String) (n : String)
    (hfs : hasFields tm n = true) (hseen : ¬ seen.contains n = true) :
    keysUnseen tm (n :: seen) < keysUnseen tm seen := by
  have hseen' : seen.contains n = false := by
    revert hseen; cases seen.contains n <;> simp
  refine length_filter_lt_of_witness (fun k => !seen.contains k)
    (fun k => !(n :: seen).contains k) (tm.map Prod.fst) ?_ n
    (hasFields_mem_keys tm n hfs) ?_ ?_
  · intro x hx
    rw [Bool.not_eq_true'] at hx ⊢
    rw [List.contains_cons] at hx
    cases hx' : seen.contains x with
    | true => rw [hx', Bool.or_true] at hx; cases hx
    | false => rfl
  · simp [List.contains_cons]
  · show (!seen.contains n) = true
    rw [hseen']
    rfl

/-- build_nested_fields: recursively build nested fields following edges,
avoiding cycles.  The mutable visiting set of the source is passed as an
explicit list: the source adds type_name on entry and removes it before
returning, so each recursive call observes exactly type_name consed onto
the set of the enclosing call, and siblings observe the same set. -/
def build_nested_fields (tm : TypeMap) (em : EdgeMap) (type_name : String)
    (seen : List String) (depth : Nat) (max_depth : Option Nat) : List NestedField :=
  if depthExceeded max_depth depth then []
  else if hseen : seen.contains type_name then []
  else
    if hfs : hasFields tm type_name then
      (fieldsOf tm type_name).map (fun f =>
        let base := get_base_type (f.type.getD emptyRef)
        let target := (em.lookup base).getD base
        if !(type_name :: seen).contains target && hasFields tm target then
          NestedField.mk (f.name.getD "") target
            (some (build_nested_fields tm em target (type_name :: seen) (depth + 1) max_depth))
        else
          NestedField.mk (f.name.getD "") target none)
    else []
termination_by keysUnseen tm seen
decreasing_by
  exact keysUnseen_lt tm seen type_name hfs hseen

/-- Fuel-indexed copy of build_nested_fields, identical step for step; it
is structurally recursive on the fuel (so it evaluates by kernel
reduction), and the bridge lemma below shows it computes
build_nested_fields once the fuel exceeds the termination measure. -/
def buildFuel (fuel : Nat) (tm : TypeMap) (em : EdgeMap) (type_name : String)
    (seen : List String) (depth : Nat) (max_depth : Option Nat) : List NestedField :=
  match fuel with
  | 0 => []
  | fuel + 1 =>
    if depthExceeded max_depth depth then []
    else if seen.contains type_name then []
    else
      if hasFields tm type_name then
        (fieldsOf tm type_name).map (fun f =>
          let base := get_base_type (f.type.getD emptyRef)
          let target := (em.lookup base).getD base
          if !(type_name :: seen).contains target && hasFields tm target then
            NestedField.mk (f.name.getD "") target
              (some (buildFuel fuel tm em target (type_name :: seen) (depth + 1) max_depth))
          else
            NestedField.mk (f.name.getD "") target none)
      else []

lemma build_eq_buildFuel (tm : TypeMap) (em : EdgeMap) :
    ∀ (fuel : Nat) (type_name : String) (seen : List String) (depth : Nat)
      (max_depth : Option Nat), keysUnseen tm seen < fuel →
      build_nested_fields tm em type_name seen depth max_depth
        = buildFuel fuel tm em type_name seen depth max_depth := by
  intro fuel
  induction fuel with
  | zero => intro _ _ _ _ h; omega
  | succ fuel ih =>
    intro type_name seen depth max_depth h
    rw [build_nested_fields]
    simp only [buildFuel]
    by_cases hd : depthExceeded max_depth depth = true
    · simp only [if_pos hd]
    · simp only [if_neg hd]
      by_cases hs : seen.contains type_name = true
      · simp only [dif_pos hs, if_pos hs]
      · simp only [dif_neg hs, if_neg hs]
        by_cases hf : hasFields tm type_name = true
        · simp only [dif_pos hf, if_pos hf]
          have hlt := keysUnseen_lt tm seen type_name hf hs
          apply List.map_congr_left
          intro f hfm
          dsimp only
          by_cases hc : (!(type_name :: seen).contains
              ((em.lookup (get_base_type (f.type.getD emptyRef))).getD
                (get_base_type (f.type.getD emptyRef)))
              && hasFields tm
                ((em.lookup (get_base_type (f.type.getD emptyRef))).getD
                  (get_base_type (f.type.getD emptyRef)))) = true
          · rw [if_pos hc, if_pos hc,
              ih _ (type_name :: seen) (depth + 1) max_depth (by omega)]
          · rw [if_neg hc, if_neg hc]
        · simp only [dif_neg hf, if_neg hf]

/-- build_nested_fields computes as the fuelled copy with fuel one more
than the number of type-map keys outside the visiting set. -/
lemma build_eval (tm : TypeMap) (em : EdgeMap) (type_name : String)
    (seen : List String) (depth : Nat) (max_depth : Option Nat) :
    build_nested_fields tm em type_name seen depth max_depth
      = buildFuel (keysUnseen tm seen + 1) tm em type_name seen depth max_depth :=
  build_eq_buildFuel tm em (keysUnseen tm seen + 1) type_name seen depth max_depth
    (Nat.lt_succ_self _)

/-- extract_fields: the flat mapping of type to its immediate field and
resolved type pairs, over domain OBJECT/INTERFACE types with a non-empty
field list.  An entry dict with only the keys field and type is a
NestedField whose last component is none. -/
def extract_fields (tm : TypeMap) : List (String × List NestedField) :=
  tm.filterMap (fun p =>
    if is_domain_type p.1 && (p.2.kind == some "OBJECT" || p.2.kind == some "INTERFACE") then
      if (p.2.fields.getD []).isEmpty then none
      else
        some (p.1, (p.2.fields.getD []).map (fun f =>
          NestedField.mk (f.name.getD "") (get_base_type (f.type.getD emptyRef)) none))
    else none)

/-- extract_nested: recursive mapping of domain types following edges;
each in-scope root gets a fresh empty visiting set. -/
def extract_nested (tm : TypeMap) (max_depth : Option Nat) : List (String × List NestedField) :=
  let edge_map := build_edge_node_map tm
  tm.filterMap (fun p =>
    if is_domain_type p.1 && (p.2.kind == some "OBJECT" || p.2.kind == some "INTERFACE") then
      some (p.1, build_nested_fields tm edge_map p.1 [] 0 max_depth)
    else none)

/-- Modelled from the spec: the degenerate run of the recursive
graph-building algorithm that the flat listing is claimed to equal — the
extract_nested traversal with an empty edge map (no edge collapsing) and
max_depth fixed to one level. -/
def extract_nested_degenerate (tm : TypeMap) : List (String × List NestedField) :=
  tm.filterMap (fun p =>
    if is_domain_type p.1 && (p.2.kind == some "OBJECT" || p.2.kind == some "INTERFACE") then
      some (p.1, build_nested_fields tm [] p.1 [] 0 (some 1))
    else none)

/-- A decoded JSON value, the input of load_schema after the external
file read and JSON decode. -/
inductive Json where
  | null
  | bool (b : Bool)
  | num (n : Int)
  | str (s : String)
  | arr (elems : List Json)
  | obj (members : List (String × Json))

/-- Python dict.get(key, default): the default when the key is absent from
a dict, an AttributeError when the receiver is not a dict. -/
def jsonGet (j : Json) (key : String) (default : Json) : Except String Json :=
  match j with
  | .obj kvs => .ok (((kvs.find? (fun p => p.1 == key)).map Prod.snd).getD default)
  | _ => .error "AttributeError"

/-- Python equality on the hashable JSON scalars, as used for dict keys:
null equals only null, strings compare as strings, and a bool equals the
number it converts to (True == 1, False == 0). Arrays and dicts never
reach a key comparison, being unhashable. -/
def pyKeyEq : Json → Json → Bool
  | .null, .null => true
  | .bool a, .bool b => a == b
  | .bool a, .num m => (if a then (1 : Int) else 0) == m
  | .num n, .bool b => n == (if b then (1 : Int) else 0)
  | .num n, .num m => n == m
  | .str a, .str b => a == b
  | _, _ => false

/-- Python hashability of a JSON value: arrays and dicts are unhashable
and raise TypeError when used as a dict key. -/
def isHashable : Json → Bool
  | .arr _ => false
  | .obj _ => false
  | _ => true

/-- Python dict assignment d[k] = v: overwrite the value of an equal key
in place, keeping the first key object, else append the new binding. -/
def dictInsert : List (Json × Json) → Json → Json → List (Json × Json)
  | [], k, v => [(k, v)]
  | (k0, v0) :: rest, k, v =>
    if pyKeyEq k0 k then (k0, v) :: rest
    else (k0, v0) :: dictInsert rest k v

/-- Python iteration over the types value: a list yields its elements, a
dict yields its keys (strings, in insertion order), a string yields its
characters as one-character strings; null, bool and number are not
iterable and raise TypeError. -/
def iterElems : Json → Except String (List Json)
  | .arr ts => .ok ts
  | .obj kvs => .ok (kvs.map (fun p => Json.str p.1))
  | .str s => .ok (s.data.map (fun c => Json.str (String.singleton c)))
  | _ => .error "TypeError"

/-- Python substring containment of one character list in another: the
needle occurs contiguously at some position of the haystack. -/
def isSubstringOf (needle : List Char) : List Char → Bool
  | [] => needle.isEmpty
  | c :: rest => needle.isPrefixOf (c :: rest) || isSubstringOf needle rest

/-- The Python membership test of the comprehension filter: key test on a
dict, substring test on a string, element equality on a list (a JSON list
element equals the string only when it is that string); on null,
bool and number the in operator raises TypeError. -/
def containsName : Json → Except String Bool
  | .obj kvs => .ok (kvs.any (fun p => p.1 == "name"))
  | .str s => .ok (isSubstringOf ("name".data) s.data)
  | .arr xs => .ok (xs.any (fun x =>
      match x with
      | .str s => s == "name"
      | _ => false))
  | _ => .error "TypeError"

/-- The subscript of the comprehension key expression: on a dict it
returns the value under the name key (present, since the filter passed);
on a string or a list a string subscript raises TypeError (indices must
be integers). -/
def getNameItem : Json → Except String Json
  | .obj kvs =>
    match (kvs.find? (fun p => p.1 == "name")).map Prod.snd with
    | some v => .ok v
    | none => .error "KeyError"
  | _ => .error "TypeError"

/-- The dict comprehension of load_schema, left to right over the
iterated elements: for each element passing the membership filter, the
value under its name key becomes the dict key (TypeError when that value
is unhashable, an array or a dict) and the element itself the dict
value, with Python dict overwrite semantics. -/
def buildTypeMap : List Json → List (Json × Json) → Except String (List (Json × Json))
  | [], acc => .ok acc
  | t :: ts, acc =>
    match containsName t with
    | .error e => .error e
    | .ok false => buildTypeMap ts acc
    | .ok true =>
      match getNameItem t with
      | .error e => .error e
      | .ok k =>
        if isHashable k then buildTypeMap ts (dictInsert acc k t)
        else .error "TypeError"

/-- load_schema after JSON decoding: walk data, then __schema, then
types, each level with an empty default when the key is missing, then
run the indexing comprehension over the types value; any Python
exception on the way propagates as an error. -/
def load_schema (data : Json) : Except String (List (Json × Json)) :=
  match jsonGet data "data" (Json.obj []) with
  | .error e => .error e
  | .ok schema0 =>
    match jsonGet schema0 "__schema" (Json.obj []) with
    | .error e => .error e
    | .ok schema =>
      match jsonGet schema "types" (Json.arr []) with
      | .error e => .error e
      | .ok types =>
        match iterElems types with
        | .error e => .error e
        | .ok ts => buildTypeMap ts []

lemma jsonGet_find_none (kvs : List (String × Json)) (key : String) (d : Json)
    (h : kvs.find? (fun p => p.1 == key) = none) :
    jsonGet (Json.obj kvs) key d = Except.ok d := by
  dsimp only [jsonGet]
  rw [h]
  rfl

lemma jsonGet_find_some (kvs : List (String × Json)) (key k0 : String) (d v : Json)
    (h : kvs.find? (fun p => p.1 == key) = some (k0, v)) :
    jsonGet (Json.obj kvs) key d = Except.ok v := by
  dsimp only [jsonGet]
  rw [h]
  rfl

/-- The type map with every field list removed and only the kind kept:
used to state that root classification ignores field contents. -/
def eraseFields (tm : TypeMap) : TypeMap :=
  tm.map (fun p => (p.1, TypeDesc.mk p.2.kind none))

lemma hasFields_lookup_none (tm : TypeMap) (n : String) (h : tm.lookup n = none) :
    hasFields tm n = false := by
  unfold hasFields fieldsOf
  rw [h]
  rfl

lemma lookup_of_mem_nodup {α : Type} (tm : List (String × α)) (p : String × α)
    (hp : p ∈ tm) (hnd : (tm.map Prod.fst).Nodup) : tm.lookup p.1 = some p.2 := by
  induction tm with
  | nil => cases hp
  | cons b tm ih =>
    obtain ⟨k, v⟩ := b
    rcases List.mem_cons.mp hp with rfl | hmem
    · simp [List.lookup]
    · rw [List.map_cons] at hnd
      have hb := (List.nodup_cons.mp hnd).1
      have hne : p.1 ≠ k := by
        intro hcontra
        exact hb (hcontra ▸ (List.mem_map.mpr ⟨p, hmem, rfl⟩))
      have hbe : (p.1 == k) = false := by
        cases hx : (p.1 == k) with
        | true => exact absurd (eq_of_beq hx) hne
        | false => rfl
      rw [List.lookup, hbe]
      exact ih hmem (List.nodup_cons.mp hnd).2

/-- Every produced entry carries the optional fields key exactly as the
recursion condition decides at the moment it is built: present, holding
the child build, when the resolved target is outside the extended
visiting set and has a non-empty field list; absent otherwise. -/
lemma build_mem_spec (tm : TypeMap) (em : EdgeMap) (n : String) (seen : List String)
    (depth : Nat) (m : Option Nat) (e : NestedField)
    (he : e ∈ build_nested_fields tm em n seen depth m) :
    e.fields = if !(n :: seen).contains e.type && hasFields tm e.type
               then some (build_nested_fields tm em e.type (n :: seen) (depth + 1) m)
               else none := by
  rw [build_nested_fields] at he
  by_cases hd : depthExceeded m depth = true
  · rw [if_pos hd] at he; cases he
  · rw [if_neg hd] at he
    by_cases hs : seen.contains n = true
    · simp only [dif_pos hs] at he; cases he
    · simp only [dif_neg hs] at he
      by_cases hf : hasFields tm n = true
      · simp only [dif_pos hf] at he
        rcases List.mem_map.mp he with ⟨f, hfm, hef⟩
        subst hef
        by_cases hc : (!(n :: seen).contains
            ((em.lookup (get_base_type (f.type.getD emptyRef))).getD
              (get_base_type (f.type.getD emptyRef)))
            && hasFields tm
              ((em.lookup (get_base_type (f.type.getD emptyRef))).getD
                (get_base_type (f.type.getD emptyRef)))) = true
        · rw [if_pos hc]
          simp only [NestedField.type, NestedField.fields]
          rw [if_pos hc]
        · rw [if_neg hc]
          simp only [NestedField.type, NestedField.fields]
          rw [if_neg hc]
      · simp only [dif_neg hf] at he; cases he

/-- When neither the depth bound nor the cycle guard stops the call, the
output has exactly one entry per field of the current type. -/
lemma build_length (tm : TypeMap) (em : EdgeMap) (n : String) (seen : List String)
    (depth : Nat) (m : Option Nat)
    (hd : depthExceeded m depth = false) (hs : seen.contains n = false) :
    (build_nested_fields tm em n seen depth m).length = (fieldsOf tm n).length := by
  have hd' : ¬ depthExceeded m depth = true := by rw [hd]; exact Bool.false_ne_true
  have hs' : ¬ seen.contains n = true := by rw [hs]; exact Bool.false_ne_true
  rw [build_nested_fields]
  rw [if_neg hd']
  simp only [dif_neg hs']
  by_cases hf : hasFields tm n = true
  · simp only [dif_pos hf, List.length_map]
  · simp only [dif_neg hf]
    have hemp : (fieldsOf tm n).isEmpty = true := by
      revert hf; unfold hasFields; cases (fieldsOf tm n).isEmpty <;> simp
    rw [List.isEmpty_iff.mp hemp]
    rfl

/-- With max_depth zero the depth guard fires immediately at every call. -/
lemma build_depth_zero (tm : TypeMap) (em : EdgeMap) (n : String)
    (seen : List String) (depth : Nat) :
    build_nested_fields tm em n seen depth (some 0) = [] := by
  rw [build_nested_fields]
  rw [if_pos (by simp [depthExceeded])]

lemma buildFuel_depth_ge :
    ∀ (fuel : Nat) (tm : TypeMap) (em : EdgeMap) (n : String) (seen : List String)
      (depth d : Nat), keysUnseen tm seen + depth ≤ d →
      buildFuel fuel tm em n seen depth (some d) = buildFuel fuel tm em n seen depth none := by
  intro fuel
  induction fuel with
  | zero => intros; rfl
  | succ fuel ih =>
    intro tm em n seen depth d h
    simp only [buildFuel, depthExceeded, Bool.false_eq_true, if_false]
    by_cases hs : seen.contains n = true
    · simp only [if_pos hs, ite_self]
    · simp only [if_neg hs]
      by_cases hf : hasFields tm n = true
      · have hlt := keysUnseen_lt tm seen n hf hs
        have hdec : decide (d ≤ depth) = false := decide_eq_false (by omega)
        simp only [hdec, Bool.false_eq_true, if_false, if_pos hf]
        apply List.map_congr_left
        intro f hfm
        dsimp only
        by_cases hc : (!(n :: seen).contains
            ((em.lookup (get_base_type (f.type.getD emptyRef))).getD
              (get_base_type (f.type.getD emptyRef)))
            && hasFields tm
              ((em.lookup (get_base_type (f.type.getD emptyRef))).getD
                (get_base_type (f.type.getD emptyRef)))) = true
        · rw [if_pos hc, if_pos hc, ih tm em _ (n :: seen) (depth + 1) d (by omega)]
        · rw [if_neg hc, if_neg hc]
      · simp only [if_neg hf, ite_self]

/-- Once the depth budget exceeds the termination measure plus the current
depth, a finite max_depth behaves like the unbounded one. -/
lemma build_depth_ge (tm : TypeMap) (em : EdgeMap) (n : String) (seen : List String)
    (depth d : Nat) (h : keysUnseen tm seen + depth ≤ d) :
    build_nested_fields tm em n seen depth (some d)
      = build_nested_fields tm em n seen depth none := by
  rw [build_eval tm em n seen depth (some d), build_eval tm em n seen depth none]
  exact buildFuel_depth_ge _ tm em n seen depth d h

lemma map_fst_filterMap {α β γ : Type} (l : List (α × β)) (c : α × β → Bool)
    (F : α × β → γ) :
    ((l.filterMap (fun p => if c p then some (p.1, F p) else none)).map Prod.fst)
      = (l.filter c).map Prod.fst := by
  induction l with
  | nil => rfl
  | cons b l ih =>
    by_cases hc : c b = true
    · simp [List.filterMap_cons, List.filter_cons, hc, ih]
    · simp [List.filterMap_cons, List.filter_cons, hc, ih]

/-- A named OBJECT type reference, as introspection emits for a plain
unwrapped field type. -/
def refTo (name : String) : TypeRef := .mk (some "OBJECT") (some name) none

/-- The cyclic schema A { b: B }, B { a: A } of the spec. -/
def tmAB : TypeMap :=
  [("A", ⟨some "OBJECT", some [⟨some "b", some (refTo "B")⟩]⟩),
   ("B", ⟨some "OBJECT", some [⟨some "a", some (refTo "A")⟩]⟩)]

/-- The edge schema A { items: [NonNull ItemEdge] }, ItemEdge { node: Item }. -/
def tmC3 : TypeMap :=
  [("A", ⟨some "OBJECT",
    some [⟨some "items",
      some (.mk (some "LIST") none
        (some (.mk (some "NON_NULL") none (some (refTo "ItemEdge")))))⟩]⟩),
   ("ItemEdge", ⟨some "OBJECT", some [⟨some "node", some (refTo "Item")⟩]⟩)]

/-- A schema whose single field resolves to a type absent from the map. -/
def tmGhost : TypeMap :=
  [("A", ⟨some "OBJECT", some [⟨some "g", some (refTo "Ghost")⟩]⟩)]

/-- C1: for the cyclic schema A { b: B }, B { a: A } with an empty edge
map, building from root A with max_depth unbounded or at least two
returns exactly the entry b : B whose fields hold the single entry a : A,
and the inner entry for a carries no fields key: the path-local cycle
guard stops expansion at the second occurrence of A on that path. -/
theorem c1_cycle_guard :
    build_nested_fields tmAB [] "A" [] 0 none
        = [NestedField.mk "b" "B" (some [NestedField.mk "a" "A" none])]
    ∧ ∀ d : Nat, 2 ≤ d →
        build_nested_fields tmAB [] "A" [] 0 (some d)
          = [NestedField.mk "b" "B" (some [NestedField.mk "a" "A" none])] := by
  have base : build_nested_fields tmAB [] "A" [] 0 none
      = [NestedField.mk "b" "B" (some [NestedField.mk "a" "A" none])] :=
    (build_eval tmAB [] "A" [] 0 none).trans rfl
  refine ⟨base, fun d hd => ?_⟩
  have hku : keysUnseen tmAB [] = 2 := rfl
  exact (build_depth_ge tmAB [] "A" [] 0 d (by omega)).trans base

/-- C1 witness: the bounded case at max_depth two. -/
theorem c1_cycle_guard_witness :
    2 ≤ 2 ∧ build_nested_fields tmAB [] "A" [] 0 (some 2)
        = [NestedField.mk "b" "B" (some [NestedField.mk "a" "A" none])] :=
  ⟨le_refl 2, c1_cycle_guard.2 2 (le_refl 2)⟩

/-- C2: build_nested_fields is definable as a total function for every
type map, edge map, root, visiting set, depth and max_depth, including
none and cyclic field-reference graphs; quantitatively, it is computed by
the structurally recursive buildFuel whenever the fuel exceeds the number
of type-map keys outside the visiting set, the bound the path-local
visiting set provides along any single path. -/
theorem c2_terminates (tm : TypeMap) (em : EdgeMap) (n : String) (seen : List String)
    (depth : Nat) (m : Option Nat) (fuel : Nat) (h : keysUnseen tm seen < fuel) :
    build_nested_fields tm em n seen depth m = buildFuel fuel tm em n seen depth m :=
  build_eq_buildFuel tm em fuel n seen depth m h

/-- C2 witness: the cyclic two-type map, unbounded depth, fuel three. -/
theorem c2_terminates_witness :
    keysUnseen tmAB [] < 3
    ∧ build_nested_fields tmAB [] "A" [] 0 none = buildFuel 3 tmAB [] "A" [] 0 none :=
  ⟨by decide, c2_terminates tmAB [] "A" [] 0 none 3 (by decide)⟩

/-- C4 counterexample: at max_depth one the child of the b : B entry is
cut off by the exhausted depth budget, yet the entry still carries the
fields key, bound to the empty list, where the claim requires no fields
key at all for a cut-off expansion. -/
theorem c4_counterexample :
    build_nested_fields tmAB [] "A" [] 0 (some 1) = [NestedField.mk "b" "B" (some [])]
    ∧ (NestedField.mk "b" "B" (some ([] : List NestedField))).fields ≠ none := by
  refine ⟨(build_eval tmAB [] "A" [] 0 (some 1)).trans rfl, ?_⟩
  simp [NestedField.fields]

/-- C4 (amended): an entry carries the optional fields key exactly when
its resolved target lies outside the path-local visiting set and has a
non-empty field list in the type map; the cycle guard, an unknown target
and a fieldless target omit the key, while a depth-exhausted expansion
still carries it, bound to the empty list. -/
theorem c4_fields_key_iff (tm : TypeMap) (em : EdgeMap) (n : String)
    (seen : List String) (depth : Nat) (m : Option Nat) (e : NestedField)
    (he : e ∈ build_nested_fields tm em n seen depth m) :
    e.fields.isSome = (!(n :: seen).contains e.type && hasFields tm e.type) := by
  rw [build_mem_spec tm em n seen depth m e he]
  by_cases hc : (!(n :: seen).contains e.type && hasFields tm e.type) = true
  · rw [if_pos hc, hc]; rfl
  · have hc' : (!(n :: seen).contains e.type && hasFields tm e.type) = false := by
      revert hc; cases (!(n :: seen).contains e.type && hasFields tm e.type) <;> simp
    rw [if_neg hc, hc']; rfl

/-- C4 witness for the amended statement: the expanded b : B entry of the
cyclic schema. -/
theorem c4_fields_key_iff_witness :
    (NestedField.mk "b" "B" (some [NestedField.mk "a" "A" none])
        ∈ build_nested_fields tmAB [] "A" [] 0 none)
    ∧ (NestedField.mk "b" "B" (some [NestedField.mk "a" "A" none])).fields.isSome
        = (!(("A" : String) :: ([] : List String)).contains "B" && hasFields tmAB "B") := by
  have hm : NestedField.mk "b" "B" (some [NestedField.mk "a" "A" none])
      ∈ build_nested_fields tmAB [] "A" [] 0 none := by
    rw [build_eval]
    show NestedField.mk "b" "B" (some [NestedField.mk "a" "A" none])
        ∈ [NestedField.mk "b" "B" (some [NestedField.mk "a" "A" none])]
    exact List.mem_singleton.mpr rfl
  exact ⟨hm, c4_fields_key_iff tmAB [] "A" [] 0 none _ hm⟩

/-- C7: a field whose resolved target name has no entry in the type map
yields a childless leaf entry with no fields key, and the traversal
continues normally: whenever the call itself is not cut off by the depth
bound or the cycle guard, the output has exactly one entry per field of
the current type. -/
theorem c7_unknown_target (tm : TypeMap) (em : EdgeMap) (n : String)
    (seen : List String) (depth : Nat) (m : Option Nat) :
    (∀ e ∈ build_nested_fields tm em n seen depth m,
        tm.lookup e.type = none → e.fields = none)
    ∧ (depthExceeded m depth = false → seen.contains n = false →
        (build_nested_fields tm em n seen depth m).length = (fieldsOf tm n).length) := by
  constructor
  · intro e he hl
    rw [build_mem_spec tm em n seen depth m e he]
    have hhf : hasFields tm e.type = false := hasFields_lookup_none tm e.type hl
    rw [if_neg (by rw [hhf, Bool.and_false]; exact Bool.false_ne_true)]
  · intro hd hs
    exact build_length tm em n seen depth m hd hs

/-- C7 witness: the field g resolving to the absent type Ghost. -/
theorem c7_unknown_target_witness :
    (NestedField.mk "g" "Ghost" none ∈ build_nested_fields tmGhost [] "A" [] 0 none)
    ∧ tmGhost.lookup "Ghost" = none
    ∧ (NestedField.mk "g" "Ghost" none).fields = none
    ∧ (build_nested_fields tmGhost [] "A" [] 0 none).length = (fieldsOf tmGhost "A").length := by
  have hm : NestedField.mk "g" "Ghost" none ∈ build_nested_fields tmGhost [] "A" [] 0 none := by
    rw [build_eval]
    show NestedField.mk "g" "Ghost" none ∈ [NestedField.mk "g" "Ghost" none]
    exact List.mem_singleton.mpr rfl
  refine ⟨hm, rfl, ?_, ?_⟩
  · exact (c7_unknown_target tmGhost [] "A" [] 0 none).1 _ hm rfl
  · exact (c7_unknown_target tmGhost [] "A" [] 0 none).2 rfl rfl

/-- C8: with max_depth zero the depth guard fires before anything is
emitted, so every build call returns the empty list and extract_nested
maps every in-scope root to an empty field list. -/
theorem c8_depth_zero (tm : TypeMap) (em : EdgeMap) (n : String)
    (seen : List String) (depth : Nat) :
    build_nested_fields tm em n seen depth (some 0) = []
    ∧ ∀ p ∈ extract_nested tm (some 0), p.2 = ([] : List NestedField) := by
  refine ⟨build_depth_zero tm em n seen depth, ?_⟩
  intro p hp
  simp only [extract_nested] at hp
  rcases List.mem_filterMap.mp hp with ⟨q, hq, hsome⟩
  by_cases hc : (is_domain_type q.1
      && (q.2.kind == some "OBJECT" || q.2.kind == some "INTERFACE")) = true
  · rw [if_pos hc] at hsome
    rw [← Option.some.inj hsome]
    exact build_depth_zero tm _ q.1 [] 0
  · rw [if_neg hc] at hsome
    cases hsome

/-- C8 witness: the root A of the cyclic schema at max_depth zero. -/
theorem c8_depth_zero_witness :
    (("A", ([] : List NestedField)) ∈ extract_nested tmAB (some 0))
    ∧ ("A", ([] : List NestedField)).2 = ([] : List NestedField) := by
  have h1 : extract_nested tmAB (some 0) = [("A", []), ("B", [])] := by
    show [("A", build_nested_fields tmAB (build_edge_node_map tmAB) "A" [] 0 (some 0)),
          ("B", build_nested_fields tmAB (build_edge_node_map tmAB) "B" [] 0 (some 0))] = _
    rw [build_depth_zero, build_depth_zero]
  have hm : ("A", ([] : List NestedField)) ∈ extract_nested tmAB (some 0) := by
    rw [h1]
    exact List.mem_cons_self _ _
  exact ⟨hm, (c8_depth_zero tmAB [] "A" [] 0).2 _ hm⟩

/-- C10: with a finite max_depth d of at least one, an entry created at
recursion depth d - 1 whose resolved target is present with a non-empty
field list and is outside the visiting path carries an explicit fields
key bound to the empty list: the child call runs and returns empty
because its depth budget is exhausted. -/
theorem c10_exhausted_depth_keeps_key (tm : TypeMap) (em : EdgeMap) (n : String)
    (seen : List String) (d : Nat) (hd : 1 ≤ d) (e : NestedField)
    (he : e ∈ build_nested_fields tm em n seen (d - 1) (some d))
    (hc : (!(n :: seen).contains e.type && hasFields tm e.type) = true) :
    e.fields = some [] := by
  have h := build_mem_spec tm em n seen (d - 1) (some d) e he
  rw [if_pos hc] at h
  have hdd : d - 1 + 1 = d := by omega
  rw [hdd] at h
  rw [build_nested_fields] at h
  rw [if_pos (show depthExceeded (some d) d = true by simp [depthExceeded])] at h
  exact h

/-- C10 witness: the b : B entry of the cyclic schema at max_depth one. -/
theorem c10_exhausted_depth_keeps_key_witness :
    1 ≤ 1
    ∧ (NestedField.mk "b" "B" (some []) ∈ build_nested_fields tmAB [] "A" [] (1 - 1) (some 1))
    ∧ (NestedField.mk "b" "B" (some ([] : List NestedField))).fields = some [] := by
  have hm : NestedField.mk "b" "B" (some [])
      ∈ build_nested_fields tmAB [] "A" [] (1 - 1) (some 1) := by
    rw [build_eval]
    show NestedField.mk "b" "B" (some []) ∈ [NestedField.mk "b" "B" (some [])]
    exact List.mem_singleton.mpr rfl
  exact ⟨le_refl 1, hm,
    c10_exhausted_depth_keeps_key tmAB [] "A" [] 1 (le_refl 1) _ hm (by decide)⟩

/-- C3: on A { items: [NonNull ItemEdge] } with ItemEdge { node: Item },
the edge map sends ItemEdge to Item, and building from A — unbounded or
with depth at least one — yields for A the single entry items : Item; the
name ItemEdge appears nowhere in the output, which contains only the
root A and that entry. -/
theorem c3_edge_collapse :
    build_edge_node_map tmC3 = [("ItemEdge", "Item")]
    ∧ extract_nested tmC3 none = [("A", [NestedField.mk "items" "Item" none])]
    ∧ ∀ d : Nat, 1 ≤ d →
        extract_nested tmC3 (some d) = [("A", [NestedField.mk "items" "Item" none])] := by
  have hshape : ∀ m : Option Nat, extract_nested tmC3 m
      = [("A", build_nested_fields tmC3 (build_edge_node_map tmC3) "A" [] 0 m)] :=
    fun m => rfl
  have hnone : extract_nested tmC3 none = [("A", [NestedField.mk "items" "Item" none])] := by
    rw [hshape none, build_eval]
    rfl
  refine ⟨rfl, hnone, fun d hd => ?_⟩
  rcases Nat.lt_or_ge d 2 with h2 | h2
  · have hone : d = 1 := by omega
    subst hone
    rw [hshape (some 1), build_eval]
    rfl
  · rw [hshape (some d)]
    have hku : keysUnseen tmC3 [] = 2 := rfl
    rw [build_depth_ge tmC3 (build_edge_node_map tmC3) "A" [] 0 d (by omega)]
    have h := hnone
    rw [hshape none] at h
    exact h

/-- C3 witness: the bounded case at depth one. -/
theorem c3_edge_collapse_witness :
    1 ≤ 1 ∧ extract_nested tmC3 (some 1) = [("A", [NestedField.mk "items" "Item" none])] :=
  ⟨le_refl 1, c3_edge_collapse.2.2 1 (le_refl 1)⟩

/-- C5 counterexample: on the empty document the expected type-list
location is missing at the very first step, yet load_schema succeeds and
returns a usable empty type map instead of failing fast with an error. -/
theorem c5_counterexample : load_schema (Json.obj []) = Except.ok [] := rfl

/-- C5 (amended): whenever the expected type-list location is absent
because a key is missing — no data key in the document dict, no __schema
key under a data dict, or no types key under a __schema dict — load_schema
substitutes the empty default for the missing part and returns the empty,
usable type map: no fail-fast, no descriptive error and no validation
happen on the missing-key path. -/
theorem c5_missing_keys :
    (∀ kvs : List (String × Json),
        kvs.find? (fun p => p.1 == "data") = none →
        load_schema (Json.obj kvs) = Except.ok [])
    ∧ (∀ kvs kvs1 : List (String × Json),
        kvs.find? (fun p => p.1 == "data") = some ("data", Json.obj kvs1) →
        kvs1.find? (fun p => p.1 == "__schema") = none →
        load_schema (Json.obj kvs) = Except.ok [])
    ∧ (∀ kvs kvs1 kvs2 : List (String × Json),
        kvs.find? (fun p => p.1 == "data") = some ("data", Json.obj kvs1) →
        kvs1.find? (fun p => p.1 == "__schema") = some ("__schema", Json.obj kvs2) →
        kvs2.find? (fun p => p.1 == "types") = none →
        load_schema (Json.obj kvs) = Except.ok []) := by
  refine ⟨fun kvs h => ?_, fun kvs kvs1 h1 h2 => ?_, fun kvs kvs1 kvs2 h1 h2 h3 => ?_⟩
  · unfold load_schema
    rw [jsonGet_find_none kvs "data" (Json.obj []) h]
    rfl
  · unfold load_schema
    rw [jsonGet_find_some kvs "data" "data" (Json.obj []) (Json.obj kvs1) h1]
    dsimp only
    rw [jsonGet_find_none kvs1 "__schema" (Json.obj []) h2]
    rfl
  · unfold load_schema
    rw [jsonGet_find_some kvs "data" "data" (Json.obj []) (Json.obj kvs1) h1]
    dsimp only
    rw [jsonGet_find_some kvs1 "__schema" "__schema" (Json.obj []) (Json.obj kvs2) h2]
    dsimp only
    rw [jsonGet_find_none kvs2 "types" (Json.arr []) h3]
    rfl

/-- C5 witness for the amended statement: the deepest case, a document
with data and __schema dicts present and the types key missing. -/
theorem c5_missing_keys_witness :
    (([("other", Json.null)] : List (String × Json)).find? (fun p => p.1 == "types") = none)
    ∧ load_schema (Json.obj [("data", Json.obj [("__schema", Json.obj [("other", Json.null)])])])
        = Except.ok [] :=
  ⟨rfl, c5_missing_keys.2.2
    [("data", Json.obj [("__schema", Json.obj [("other", Json.null)])])]
    [("__schema", Json.obj [("other", Json.null)])]
    [("other", Json.null)] rfl rfl rfl⟩

/-- C9: for every type map and every max_depth the root keys of
extract_nested are exactly the names whose descriptor kind is OBJECT or
INTERFACE and that pass the double-underscore and
Connection/Edge/Payload name filters; the classification never reads
field contents, since erasing every field list leaves the keys
unchanged. -/
theorem c9_root_classification (tm : TypeMap) (m1 m2 : Option Nat) :
    ((extract_nested tm m1).map Prod.fst
      = (tm.filter (fun p => is_domain_type p.1
          && (p.2.kind == some "OBJECT" || p.2.kind == some "INTERFACE"))).map Prod.fst)
    ∧ (extract_nested (eraseFields tm) m2).map Prod.fst
        = (extract_nested tm m1).map Prod.fst := by
  have key : ∀ (tm0 : TypeMap) (m : Option Nat), (extract_nested tm0 m).map Prod.fst
      = (tm0.filter (fun p => is_domain_type p.1
          && (p.2.kind == some "OBJECT" || p.2.kind == some "INTERFACE"))).map Prod.fst := by
    intro tm0 m
    simp only [extract_nested]
    exact map_fst_filterMap tm0 _ _
  refine ⟨key tm m1, ?_⟩
  rw [key, key]
  induction tm with
  | nil => rfl
  | cons b tm ih =>
    have hkind : (TypeDesc.mk b.2.kind none).kind = b.2.kind := rfl
    rw [show eraseFields (b :: tm) = (b.1, TypeDesc.mk b.2.kind none) :: eraseFields tm from rfl]
    rw [List.filter_cons, List.filter_cons, hkind]
    by_cases hc : (is_domain_type b.1
        && (b.2.kind == some "OBJECT" || b.2.kind == some "INTERFACE")) = true
    · rw [if_pos hc, if_pos hc, List.map_cons, List.map_cons, ih]
    · rw [if_neg hc, if_neg hc, ih]

/-- C6 counterexample: on the cyclic A/B schema the flat listing differs
from the depth-one degenerate run: the degenerate run binds an explicit
empty fields key to each expandable target, which the flat listing never
emits. -/
theorem c6_counterexample :
    extract_fields tmAB ≠ extract_nested_degenerate tmAB := by
  have h1 : extract_fields tmAB
      = [("A", [NestedField.mk "b" "B" none]), ("B", [NestedField.mk "a" "A" none])] := rfl
  have h2 : extract_nested_degenerate tmAB
      = [("A", [NestedField.mk "b" "B" (some [])]),
         ("B", [NestedField.mk "a" "A" (some [])])] := by
    show [("A", build_nested_fields tmAB [] "A" [] 0 (some 1)),
          ("B", build_nested_fields tmAB [] "B" [] 0 (some 1))] = _
    rw [build_eval, build_eval]
    rfl
  rw [h1, h2]
  simp

/-- C6 (amended): for a type map with unique keys, the flat listing
agrees with the depth-one degenerate run only up to the differences the
code forces: drop the degenerate roots whose field list is empty (the
flat listing omits fieldless types entirely) and erase the fields keys of
the remaining entries (the degenerate run binds an explicit empty fields
key to every expandable target, which the flat listing never emits).
Field names and resolved types then match entry for entry. -/
theorem c6_flat_vs_degenerate (tm : TypeMap) (hnd : (tm.map Prod.fst).Nodup) :
    extract_fields tm
      = (extract_nested_degenerate tm).filterMap (fun q =>
          if q.2.isEmpty then none
          else some (q.1, q.2.map (fun e => NestedField.mk e.field e.type none))) := by
  unfold extract_fields extract_nested_degenerate
  rw [List.filterMap_filterMap]
  apply List.filterMap_congr
  intro p hp
  have hl : tm.lookup p.1 = some p.2 := lookup_of_mem_nodup tm p hp hnd
  have hfo : fieldsOf tm p.1 = p.2.fields.getD [] := by
    unfold fieldsOf
    rw [hl]
    rfl
  by_cases hcond : (is_domain_type p.1
      && (p.2.kind == some "OBJECT" || p.2.kind == some "INTERFACE")) = true
  · simp only [if_pos hcond]
    by_cases hfe : (p.2.fields.getD []).isEmpty = true
    · have hnf : ¬ hasFields tm p.1 = true := by
        unfold hasFields
        rw [hfo, hfe]
        exact fun hx => Bool.noConfusion hx
      have hb : build_nested_fields tm [] p.1 [] 0 (some 1) = [] := by
        rw [build_nested_fields]
        rw [if_neg (show ¬ depthExceeded (some 1) 0 = true by decide)]
        simp only [dif_neg (show ¬ ([] : List String).contains p.1 = true
          from fun hx => Bool.noConfusion hx)]
        simp only [dif_neg hnf]
      rw [if_pos hfe, hb]
      rfl
    · have hasf : hasFields tm p.1 = true := by
        unfold hasFields
        rw [hfo]
        revert hfe
        cases (p.2.fields.getD []).isEmpty <;> simp
      have hchild : ∀ t, build_nested_fields tm [] t [p.1] (0 + 1) (some 1) = [] := by
        intro t
        rw [build_nested_fields]
        rw [if_pos (show depthExceeded (some 1) (0 + 1) = true by decide)]
      have hb : build_nested_fields tm [] p.1 [] 0 (some 1)
          = (p.2.fields.getD []).map (fun f =>
              if !([p.1] : List String).contains (get_base_type (f.type.getD emptyRef))
                  && hasFields tm (get_base_type (f.type.getD emptyRef)) then
                NestedField.mk (f.name.getD "") (get_base_type (f.type.getD emptyRef)) (some [])
              else
                NestedField.mk (f.name.getD "") (get_base_type (f.type.getD emptyRef)) none) := by
        rw [build_nested_fields]
        rw [if_neg (show ¬ depthExceeded (some 1) 0 = true by decide)]
        simp only [dif_neg (show ¬ ([] : List String).contains p.1 = true
          from fun hx => Bool.noConfusion hx)]
        simp only [dif_pos hasf]
        rw [hfo]
        apply List.map_congr_left
        intro f hfm
        dsimp only
        simp only [List.lookup, Option.getD_none]
        rw [hchild]
      rw [if_neg hfe, hb]
      rw [Option.some_bind]
      dsimp only
      have hie : ((p.2.fields.getD []).map (fun f =>
          if !([p.1] : List String).contains (get_base_type (f.type.getD emptyRef))
              && hasFields tm (get_base_type (f.type.getD emptyRef)) then
            NestedField.mk (f.name.getD "") (get_base_type (f.type.getD emptyRef)) (some [])
          else
            NestedField.mk (f.name.getD "") (get_base_type (f.type.getD emptyRef)) none)).isEmpty
          = false := by
        rcases hx : p.2.fields.getD [] with _ | ⟨f0, fs0⟩
        · exfalso
          apply hfe
          rw [hx]
          rfl
        · rfl
      rw [hie, if_neg Bool.false_ne_true]
      rw [List.map_map]
      refine congrArg (fun l => some (p.1, l)) ?_
      apply List.map_congr_left
      intro f hfm
      by_cases hcf : (!([p.1] : List String).contains (get_base_type (f.type.getD emptyRef))
          && hasFields tm (get_base_type (f.type.getD emptyRef))) = true
      · rw [Function.comp_apply, if_pos hcf]
        rfl
      · rw [Function.comp_apply, if_neg hcf]
        rfl
  · simp only [if_neg hcond]
    rfl

/-- C6 witness for the amended statement: the cyclic two-type schema. -/
theorem c6_flat_vs_degenerate_witness :
    (tmAB.map Prod.fst).Nodup
    ∧ extract_fields tmAB
        = (extract_nested_degenerate tmAB).filterMap (fun q =>
            if q.2.isEmpty then none
            else some (q.1, q.2.map (fun e => NestedField.mk e.field e.type none))) :=
  ⟨by decide, c6_flat_vs_degenerate tmAB (by decide)⟩

end GitlabSchema
